import Mathlib

/-!
Verification development for the David-BCI decoding core.

The repository ships a demo script (`demos/FBTRCA.py`), paradigm validity
checks (`metabci/brainda/paradigms/ssvep.py`, `p300.py`) and the
Schirrmeister2017 dataset class (`metabci/brainda/datasets/schirrmeister2017.py`).
The decoding-core implementations (`generate_filterbank`,
`generate_kfold_indices`, `match_kfold_indices`, `FBTRCA`) live in the
`davidbci` package, whose source is not part of the checked tree; they are
modelled here from the specification document, with the numerically open
parts (band-pass filter application, scalar Pearson correlation, the
generalized eigensolver's raw eigenvector) kept as explicit parameters.
Signals are embedded as lists of rationals.
-/

namespace DavidBCI

/-- A single-channel time series (one value per time sample). -/
abbrev Signal := List ℚ

/-- A trial: channel-major multichannel recording, `channels × time`. -/
abbrev Trial := List Signal

/-- Dot product of two coefficient lists (truncating at the shorter). -/
def dot (a b : List ℚ) : ℚ := (List.zipWith (· * ·) a b).sum

/-- Apply a spatial filter `w` (one weight per channel) to a trial:
at every time sample, the weighted sum of the channel values. -/
def project (w : List ℚ) (x : Trial) : Signal :=
  x.transpose.map (fun col => dot w col)

/-- `sign(r) * r^2`: squaring with sign preservation (spec section 4.3 step 2). -/
def signedSquare (r : ℚ) : ℚ := if r < 0 then -(r * r) else r * r

/-- The sign of a rational, written out as the spec's `sign(r)` factor. -/
def ratSign (r : ℚ) : ℚ := if r < 0 then -1 else if r = 0 then 0 else 1

/-- Index of the first maximum of a list (the `argmax`, ties to the lowest
index, as `numpy.argmax` behaves and the spec demands). -/
def argmaxList : List ℚ → Nat
  | [] => 0
  | x :: xs => if xs.all (fun v => decide (v ≤ x)) then 0 else argmaxList xs + 1

/-! ### Filter-bank builder and the demo configuration -/

/-- A designed band-pass filter specification. Modelled from the spec: the
Chebyshev Type I coefficient computation inside `generate_filterbank` (module
`davidbci.brainda.algorithms.decomposition.base`) is not in the checked tree;
per spec section 3 any deterministic filter representation may be chosen, so a
specification records the Nyquist-normalized pass-band edges together with the
requested order and ripple. -/
structure FilterSpec where
  lowEdge : ℚ
  highEdge : ℚ
  order : Nat
  ripple : ℚ
deriving DecidableEq

/-- The Nyquist frequency of a sampling rate. -/
def nyquist (srate : ℚ) : ℚ := srate / 2

/-- An edge pair is admissible when low < high and both edges lie strictly
below the Nyquist frequency. -/
def validBandEdges (srate : ℚ) (p : ℚ × ℚ) : Bool :=
  decide (p.1 < p.2) && decide (p.1 < nyquist srate) && decide (p.2 < nyquist srate)

/-- Modelled from the spec: `generate_filterbank(wp, ws, srate, order, rp)` is
not in the checked tree. Per spec section 4.1 it designs one band-pass filter
per pass-band pair from the Nyquist-normalized pass edges, in input order, and
any edge pair with low ≥ high or any edge at or above the Nyquist frequency is
an invalid-configuration error; the builder does not clamp or adjust edges. -/
def generate_filterbank (wp ws : List (ℚ × ℚ)) (srate : ℚ) (order : Nat) (rp : ℚ) :
    Except String (List FilterSpec) :=
  if (wp ++ ws).all (validBandEdges srate) then
    .ok (wp.map (fun p =>
      { lowEdge := p.1 / nyquist srate, highEdge := p.2 / nyquist srate
        order := order, ripple := rp }))
  else
    .error "ConfigurationError"

/-- Pass-band edge pairs `wp` of demos/FBTRCA.py line 12. -/
def demo_wp : List (ℚ × ℚ) := [(5, 90), (14, 90), (22, 90), (30, 90), (38, 90)]

/-- Stop-band edge pairs `ws` of demos/FBTRCA.py line 13. -/
def demo_ws : List (ℚ × ℚ) := [(3, 92), (12, 92), (20, 92), (28, 92), (36, 92)]

/-- Sampling rate passed to `generate_filterbank` in demos/FBTRCA.py line 15. -/
def demo_srate : ℚ := 250

/-! ### Stratified k-fold index generator -/

/-- Indices, within one subject's trial list, whose label equals `c`,
in increasing order. -/
def classIdx (labels : List Nat) (c : Nat) : List Nat :=
  (List.range labels.length).filter (fun i => labels.getD i 0 == c)

/-- Split a list into `k` consecutive chunks of near-equal size
(`numpy.array_split` sizing: longer chunks first, sizes differing by at
most one). -/
def splitChunks : Nat → List α → List (List α)
  | 0, _ => []
  | k + 1, l =>
      l.take (l.length / (k + 1) + if l.length % (k + 1) = 0 then 0 else 1)
        :: splitChunks k (l.drop (l.length / (k + 1) + if l.length % (k + 1) = 0 then 0 else 1))

/-- Modelled from the spec: `generate_kfold_indices(meta, kfold)` from
`davidbci.brainda.algorithms.utils.model_selection` is not in the checked
tree. Metadata is reduced to one subject's per-trial class-label list. Per
spec section 4.4, trials are split class-stratified: for each distinct class,
the trial indices of that class are divided into `kfold` consecutive chunks of
near-equal size; a class with fewer trials than `kfold` is a
`ConfigurationError` instead of a silent empty fold. -/
def generate_kfold_indices (labels : List Nat) (kfold : Nat) :
    Except String (List (List (List Nat))) :=
  if labels.dedup.all (fun c => kfold ≤ (classIdx labels c).length) then
    .ok (labels.dedup.map (fun c => splitChunks kfold (classIdx labels c)))
  else
    .error "ConfigurationError"

/-- Fold `j` of a per-class fold assignment, concatenated across classes. -/
def singleFold (assign : List (List (List Nat))) (j : Nat) : List Nat :=
  (assign.map (fun chs => chs.getD j [])).flatten

/-- All folds except `k` and `(k+1) mod kfold`, concatenated across classes. -/
def restFolds (assign : List (List (List Nat))) (k kfold : Nat) : List Nat :=
  (assign.map (fun chs =>
      (((List.range kfold).filter (fun j => j != k && j != (k + 1) % kfold)).map
        (fun j => chs.getD j [])).flatten)).flatten

/-- Modelled from the spec: `match_kfold_indices(k, meta, indices)` is not in
the checked tree. Per spec section 4.4, fold `k` is the test set, fold
`(k+1) mod kfold` is the validate set, and the remaining folds form the train
set, each concatenated across classes. -/
def match_kfold_indices (k kfold : Nat) (assign : List (List (List Nat))) :
    List Nat × List Nat × List Nat :=
  (restFolds assign k kfold, singleFold assign ((k + 1) % kfold), singleFold assign k)

/-! ### Paradigm validity checks and the Schirrmeister2017 dataset -/

/-- Dataset attributes relevant to paradigm validation and path lookup, as
stored by the `BaseDataset` constructor from the keyword arguments that
`Schirrmeister2017.__init__` passes (schirrmeister2017.py lines 200-208). -/
structure DatasetMeta where
  dataset_code : String
  subjects : List Nat
  srate : ℚ
  paradigm : String

/-- `SSVEP.is_valid` from metabci/brainda/paradigms/ssvep.py lines 14-18:
start from `ret = True`, clear it when the paradigm differs from "ssvep". -/
def ssvep_is_valid (d : DatasetMeta) : Bool :=
  let ret := true
  let ret := if d.paradigm ≠ "ssvep" then false else ret
  ret

/-- `P300.is_valid` from metabci/brainda/paradigms/p300.py lines 13-17. -/
def p300_is_valid (d : DatasetMeta) : Bool :=
  let ret := true
  let ret := if d.paradigm ≠ "p300" then false else ret
  ret

/-- The dataset object built by `Schirrmeister2017.__init__`
(schirrmeister2017.py lines 200-208): subjects `list(range(1, 15))`,
sampling rate 500, paradigm "imagery". -/
def schirrmeister2017 : DatasetMeta where
  dataset_code := "schirrmeister2017"
  subjects := List.range' 1 14
  srate := 500
  paradigm := "imagery"

/-- `GIN_URL` from schirrmeister2017.py line 22. -/
def gin_url : String :=
  "https://web.gin.g-node.org/robintibor/high-gamma-dataset/raw/master/data"

/-- The URL assembled by the format string at schirrmeister2017.py line 223:
base url, split kind ("train"/"test"), subject number, ".mat". -/
def subject_url (t : String) (subject : Nat) : String :=
  gin_url ++ "/" ++ t ++ "/" ++ toString subject ++ ".mat"

/-- `Schirrmeister2017.data_path` (schirrmeister2017.py lines 210-238),
embedded with explicit state passing for the dataset object. The download
resolver `mne_data_path` is outside the checked tree and is abstracted as
`fetch`, mapping a source URL to a local path. -/
def data_path (fetch : String → String) (d : DatasetMeta) (subject : Nat) :
    Except String (List (List String)) × DatasetMeta :=
  if subject ∉ d.subjects then
    (.error "Invalid subject id", d)
  else
    (.ok [(["train", "test"]).map (fun t => fetch (subject_url t subject))], d)

/-! ### FBTRCA ensemble classifier -/

/-- Pointwise sum of two signals. -/
def addSig (a b : Signal) : Signal := List.zipWith (· + ·) a b

/-- Channel- and sample-wise sum of two trials. -/
def addTrial (a b : Trial) : Trial := List.zipWith addSig a b

/-- Scale every sample of a trial. -/
def scaleTrial (q : ℚ) (x : Trial) : Trial := x.map (fun ch => ch.map (fun v => q * v))

/-- Mean of a list of trials. -/
def meanTrials : List Trial → Trial
  | [] => []
  | t :: ts => scaleTrial (1 / (ts.length + 1 : ℚ)) (ts.foldl addTrial t)

/-- The sign convention of spec section 4.2: flip the eigenvector when its
component of largest magnitude is negative, so that correlation scoring is
stable across repeated fits. -/
def fixSign (w : List ℚ) : List ℚ :=
  if w.getD (argmaxList (w.map (fun v => |v|))) 0 < 0 then w.map (fun v => -v) else w

/-- Modelled from the spec: the `FBTRCA` estimator of
`davidbci.brainda.algorithms.decomposition` is not in the checked tree. The
band-pass filter application of each sub-band is kept abstract in `bands`
(spec: any deterministic zero-phase filter representation), as is the scalar
Pearson correlation `pear`, whose exact multi-component projection formula the
spec leaves to the implementer; `fw` is the externally supplied sub-band
weight vector. -/
structure FBTRCAModel where
  bands : List (Trial → Trial)
  pear : Signal → Signal → ℚ
  fw : List ℚ

/-- Per-sub-band fit result: one spatial filter and one template per class. -/
structure FittedBand where
  sfilter : List ℚ
  templates : List Signal

instance : Inhabited FittedBand := ⟨⟨[], []⟩⟩

/-- Trials of class `c` among the (already band-filtered) training pairs. -/
def classTrials (data : List (Trial × Nat)) (c : Nat) : List Trial :=
  (data.filter (fun p => p.2 == c)).map Prod.fst

/-- Fit one sub-band given the sign-fixed spatial filter: the class template
is the spatially filtered class-mean trial (spec section 4.2 step 4). -/
def fitBand (bf : Trial → Trial) (w : List ℚ) (X : List Trial) (y : List Nat)
    (classes : List Nat) : FittedBand where
  sfilter := w
  templates := classes.map (fun c =>
    project w (meanTrials (classTrials ((X.map bf).zip y) c)))

/-- Modelled from the spec: `FBTRCA.fit`. For every sub-band the training
trials are band-filtered and one TRCA estimator is fitted. The generalized
eigensolver is abstracted by `eigs`, the raw per-band dominant eigenvector it
returned (whose sign is arbitrary); the fit applies the sign convention to it.
Returns the per-band fit results and the candidate class list. -/
def FBTRCA_fit (m : FBTRCAModel) (eigs : List (List ℚ)) (X : List Trial)
    (y : List Nat) : List FittedBand × List Nat :=
  (List.zipWith (fun bf w => fitBand bf w X y y.dedup) m.bands (eigs.map fixSign),
   y.dedup)

/-- Correlation matrix of one test trial: row `b` holds, for every class, the
correlation between the sub-band-b spatially filtered trial and that class's
stored template (spec section 4.3 step 1). -/
def rMatrix (m : FBTRCAModel) (fitted : List FittedBand) (x : Trial) :
    List (List ℚ) :=
  List.zipWith (fun bf fb =>
      fb.templates.map (fun tpl => m.pear (project fb.sfilter (bf x)) tpl))
    m.bands fitted

/-- The raw correlation `r_bc` of sub-band `b` and class `c` for one test
trial: the correlation between the sub-band-b spatially filtered trial and
sub-band-b's stored template for class c. -/
def rawCorr (m : FBTRCAModel) (fitted : List FittedBand) (x : Trial)
    (b c : Nat) : ℚ :=
  m.pear (project (fitted.getD b default).sfilter ((m.bands.getD b id) x))
    ((fitted.getD b default).templates.getD c [])

/-- Fused score of class `c`: accumulate `filterweights[b] * sign(r) * r^2`
over the sub-bands (spec section 4.3 step 2). -/
def fuseRow (fw : List ℚ) (rs : List (List ℚ)) (c : Nat) : ℚ :=
  (List.zipWith (fun w row => w * signedSquare (row.getD c 0)) fw rs).sum

/-- All fused class scores of one test trial. -/
def predictScores (m : FBTRCAModel) (fitted : List FittedBand) (x : Trial)
    (numClasses : Nat) : List ℚ :=
  (List.range numClasses).map (fun c => fuseRow m.fw (rMatrix m fitted x) c)

/-- Modelled from the spec: `FBTRCA.predict` maps every test trial, in input
order, to the candidate class attaining the maximal fused score, ties broken
by the lowest class index. -/
def FBTRCA_predict (m : FBTRCAModel) (fitted : List FittedBand)
    (classes : List Nat) (tests : List Trial) : List Nat :=
  tests.map (fun x =>
    classes.getD (argmaxList (predictScores m fitted x classes.length)) 0)

/-- Modelled from the spec: the components "never mutate input tensors in
place" (spec section 3), so the fit call is embedded state-passing: the
caller's trial tensor and label array come back next to the fit result. -/
def FBTRCA_fit_call (m : FBTRCAModel) (eigs : List (List ℚ)) (X : List Trial)
    (y : List Nat) : (List FittedBand × List Nat) × List Trial × List Nat :=
  (FBTRCA_fit m eigs X y, X, y)

/-- Modelled from the spec: `TRCA.transform` applies the learned spatial
filter to new trials without refitting; state-passing embedding of the call. -/
def TRCA_transform_call (fb : FittedBand) (X : List Trial) :
    List Signal × List Trial :=
  (X.map (fun x => project fb.sfilter x), X)

/-- Modelled from the spec: the predict call with explicit state passing. -/
def FBTRCA_predict_call (m : FBTRCAModel) (fitted : List FittedBand)
    (classes : List Nat) (tests : List Trial) : List Nat × List Trial :=
  (FBTRCA_predict m fitted classes tests, tests)

/-- Scale each eigenvector by the corresponding solver-run sign: the raw
output of one eigensolver run whose per-band signs are arbitrary. -/
def scaleEach (signs : List ℚ) (eigs : List (List ℚ)) : List (List ℚ) :=
  List.zipWith (fun s w => w.map (fun v => s * v)) signs eigs

/-- A small concrete model instance (identity band, dot-product correlation,
unit weight) used to evaluate the theorems on explicit inputs. -/
def tinyM : FBTRCAModel where
  bands := [fun t => t]
  pear := fun a b => dot a b
  fw := [1]

/-- A small concrete fit result matching `tinyM`: one sub-band, two classes. -/
def tinyFit : List FittedBand := [⟨[1, 0], [[1], [2]]⟩]

/-! ### Supporting lemmas -/

theorem signedSquare_eq_sign_mul_sq (r : ℚ) : signedSquare r = ratSign r * (r * r) := by
  unfold signedSquare ratSign
  rcases lt_trichotomy r 0 with h | h | h
  · simp [h, not_lt.mpr (le_of_lt h)]
  · simp [h]
  · have h0 : ¬ r < 0 := not_lt.mpr (le_of_lt h)
    have h1 : r ≠ 0 := ne_of_gt h
    simp [h0, h1]

theorem argmaxList_cons (x : ℚ) (xs : List ℚ) :
    argmaxList (x :: xs) =
      if xs.all (fun v => decide (v ≤ x)) then 0 else argmaxList xs + 1 := rfl

theorem argmaxList_lt_length (l : List ℚ) (h : l ≠ []) : argmaxList l < l.length := by
  induction l with
  | nil => exact absurd rfl h
  | cons x xs ih =>
    by_cases hall : xs.all (fun v => decide (v ≤ x))
    · rw [argmaxList_cons, if_pos hall]
      simp
    · have hne : xs ≠ [] := by rintro rfl; simp [List.all_nil] at hall
      rw [argmaxList_cons, if_neg hall, List.length_cons]
      exact Nat.succ_lt_succ (ih hne)

theorem argmaxList_is_max (l : List ℚ) (j : Nat) (hj : j < l.length) :
    l.getD j 0 ≤ l.getD (argmaxList l) 0 := by
  induction l generalizing j with
  | nil => simp at hj
  | cons x xs ih =>
    by_cases hall : xs.all (fun v => decide (v ≤ x))
    · rw [argmaxList_cons, if_pos hall]
      rcases j with _ | j
      · simp
      · have hj' : j < xs.length := Nat.lt_of_succ_lt_succ hj
        have hmem : xs.getD j 0 ∈ xs := by
          rw [List.getD_eq_getElem _ _ hj']
          exact List.getElem_mem hj'
        have := List.all_eq_true.mp hall _ hmem
        simpa using this
    · rw [argmaxList_cons, if_neg hall]
      rcases j with _ | j
      · -- the head is not above everything, so some element exceeds it
        rw [List.all_eq_true] at hall
        push_neg at hall
        obtain ⟨v, hv, hvx⟩ := hall
        have hvx' : x < v := by
          by_contra hcon
          exact hvx (by simpa using not_lt.mp hcon)
        obtain ⟨k, hk, hvk⟩ := List.getElem_of_mem hv
        have h1 : xs.getD k 0 ≤ xs.getD (argmaxList xs) 0 := ih k hk
        have h2 : xs.getD k 0 = v := by rw [List.getD_eq_getElem _ _ hk, hvk]
        calc (x :: xs).getD 0 0 = x := rfl
          _ ≤ v := le_of_lt hvx'
          _ = xs.getD k 0 := h2.symm
          _ ≤ xs.getD (argmaxList xs) 0 := h1
          _ = (x :: xs).getD (argmaxList xs + 1) 0 := by simp
      · have := ih j (Nat.lt_of_succ_lt_succ hj)
        simpa using this

theorem argmaxList_first (l : List ℚ) (j : Nat) (hj : j < l.length)
    (hmax : l.getD (argmaxList l) 0 ≤ l.getD j 0) : argmaxList l ≤ j := by
  induction l generalizing j with
  | nil => simp at hj
  | cons x xs ih =>
    by_cases hall : xs.all (fun v => decide (v ≤ x))
    · rw [argmaxList_cons, if_pos hall]
      exact Nat.zero_le j
    · rw [argmaxList_cons, if_neg hall] at hmax ⊢
      rcases j with _ | j
      · -- the value at index 0 would then dominate the tail, contradiction
        exfalso
        rw [List.all_eq_true] at hall
        push_neg at hall
        obtain ⟨v, hv, hvx⟩ := hall
        have hvx' : x < v := by
          by_contra hcon
          exact hvx (by simpa using not_lt.mp hcon)
        obtain ⟨k, hk, hvk⟩ := List.getElem_of_mem hv
        have h1 : xs.getD k 0 ≤ xs.getD (argmaxList xs) 0 := argmaxList_is_max xs k hk
        have h2 : xs.getD k 0 = v := by rw [List.getD_eq_getElem _ _ hk, hvk]
        have : v ≤ x := by
          calc v = xs.getD k 0 := h2.symm
            _ ≤ xs.getD (argmaxList xs) 0 := h1
            _ = (x :: xs).getD (argmaxList xs + 1) 0 := by simp
            _ ≤ (x :: xs).getD 0 0 := hmax
            _ = x := rfl
        exact absurd this (not_le.mpr hvx')
      · have := ih j (Nat.lt_of_succ_lt_succ hj) (by simpa using hmax)
        exact Nat.succ_le_succ this

theorem splitChunks_length (k : Nat) (l : List α) : (splitChunks k l).length = k := by
  induction k generalizing l with
  | zero => rfl
  | succ k ih => simp [splitChunks, ih]

theorem splitChunks_flatten (k : Nat) (l : List α) (hk : 1 ≤ k) :
    (splitChunks k l).flatten = l := by
  induction k generalizing l with
  | zero => omega
  | succ k ih =>
    cases k with
    | zero =>
      simp [splitChunks, Nat.mod_one]
    | succ k' =>
      rw [splitChunks, List.flatten_cons, ih _ (Nat.succ_le_succ (Nat.zero_le _)),
        List.take_append_drop]

theorem mem_classIdx (labels : List Nat) (c i : Nat) :
    i ∈ classIdx labels c ↔ i < labels.length ∧ labels.getD i 0 = c := by
  simp [classIdx, List.mem_filter, List.mem_range]

theorem classIdx_nodup (labels : List Nat) (c : Nat) : (classIdx labels c).Nodup :=
  (List.nodup_range _).filter _

/-- Membership in a single fold's chunk implies membership in the class's
index list. -/
theorem mem_chunk_subset (kfold j : Nat) (l : List Nat) (hk : 1 ≤ kfold) (i : Nat)
    (hi : i ∈ (splitChunks kfold l).getD j []) : i ∈ l := by
  by_cases hj : j < (splitChunks kfold l).length
  · rw [List.getD_eq_getElem _ _ hj] at hi
    have hchunk : (splitChunks kfold l)[j] ∈ splitChunks kfold l := List.getElem_mem hj
    have := List.mem_flatten.mpr ⟨_, hchunk, hi⟩
    rwa [splitChunks_flatten _ _ hk] at this
  · rw [List.getD_eq_default _ _ (Nat.le_of_not_lt hj)] at hi
    simp at hi

/-- Chunks of distinct folds of a duplicate-free list are disjoint. -/
theorem chunk_disjoint (kfold : Nat) (l : List Nat) (hk : 1 ≤ kfold)
    (hnd : l.Nodup) (j j' : Nat) (hne : j ≠ j') (i : Nat)
    (h1 : i ∈ (splitChunks kfold l).getD j [])
    (h2 : i ∈ (splitChunks kfold l).getD j' []) : False := by
  have hlen := splitChunks_length kfold l
  by_cases hj : j < (splitChunks kfold l).length
  swap
  · rw [List.getD_eq_default _ _ (Nat.le_of_not_lt hj)] at h1
    simp at h1
  by_cases hj' : j' < (splitChunks kfold l).length
  swap
  · rw [List.getD_eq_default _ _ (Nat.le_of_not_lt hj')] at h2
    simp at h2
  have hjoin : (splitChunks kfold l).flatten.Nodup := by
    rw [splitChunks_flatten _ _ hk]; exact hnd
  have hpw : List.Pairwise List.Disjoint (splitChunks kfold l) :=
    (List.nodup_flatten.mp hjoin).2
  rw [List.getD_eq_getElem _ _ hj] at h1
  rw [List.getD_eq_getElem _ _ hj'] at h2
  rcases Nat.lt_or_ge j j' with hlt | hge
  · exact (List.pairwise_iff_getElem.mp hpw j j' hj hj' hlt) h1 h2
  · have hlt : j' < j := Nat.lt_of_le_of_ne hge (Ne.symm hne)
    exact (List.pairwise_iff_getElem.mp hpw j' j hj' hj hlt) h2 h1

theorem generate_ok_eq (labels : List Nat) (kfold : Nat)
    (assign : List (List (List Nat)))
    (h : generate_kfold_indices labels kfold = .ok assign) :
    assign = labels.dedup.map (fun c => splitChunks kfold (classIdx labels c)) ∧
    ∀ c ∈ labels.dedup, kfold ≤ (classIdx labels c).length := by
  unfold generate_kfold_indices at h
  by_cases hcond : labels.dedup.all (fun c => kfold ≤ (classIdx labels c).length)
  · rw [if_pos hcond] at h
    refine ⟨(Except.ok.injEq _ _).mp h.symm, ?_⟩
    intro c hc
    have := List.all_eq_true.mp hcond c hc
    simpa using this
  · rw [if_neg hcond] at h
    exact absurd h (by simp)

theorem mem_singleFold (labels : List Nat) (kfold j i : Nat) :
    i ∈ singleFold (labels.dedup.map (fun c => splitChunks kfold (classIdx labels c))) j
      ↔ ∃ c ∈ labels.dedup, i ∈ (splitChunks kfold (classIdx labels c)).getD j [] := by
  simp [singleFold, List.mem_flatten]

theorem mem_restFolds (labels : List Nat) (kfold k i : Nat) :
    i ∈ restFolds (labels.dedup.map (fun c => splitChunks kfold (classIdx labels c))) k kfold
      ↔ ∃ c ∈ labels.dedup, ∃ j, j < kfold ∧ j ≠ k ∧ j ≠ (k + 1) % kfold ∧
          i ∈ (splitChunks kfold (classIdx labels c)).getD j [] := by
  simp only [restFolds, List.mem_flatten, List.mem_map, List.mem_filter, List.mem_range]
  constructor
  · rintro ⟨l, ⟨chs, ⟨c, hc, rfl⟩, rfl⟩, hi⟩
    rw [List.mem_flatten] at hi
    obtain ⟨piece, hpiece, hip⟩ := hi
    rw [List.mem_map] at hpiece
    obtain ⟨j, hj, rfl⟩ := hpiece
    rw [List.mem_filter] at hj
    obtain ⟨hjr, hjcond⟩ := hj
    rw [List.mem_range] at hjr
    refine ⟨c, hc, j, hjr, ?_, ?_, hip⟩
    · have := (Bool.and_eq_true _ _).mp hjcond |>.1
      simpa using this
    · have := (Bool.and_eq_true _ _).mp hjcond |>.2
      simpa using this
  · rintro ⟨c, hc, j, hjr, hjk, hjv, hi⟩
    refine ⟨_, ⟨_, ⟨c, hc, rfl⟩, rfl⟩, ?_⟩
    rw [List.mem_flatten]
    refine ⟨_, ?_, hi⟩
    rw [List.mem_map]
    refine ⟨j, ?_, rfl⟩
    rw [List.mem_filter, List.mem_range]
    refine ⟨hjr, ?_⟩
    simp [hjk, hjv]

/-- An index can only sit in the chunk of its own label's class. -/
theorem chunk_class_unique (labels : List Nat) (kfold : Nat) (hk : 1 ≤ kfold)
    (c c' j j' i : Nat)
    (h1 : i ∈ (splitChunks kfold (classIdx labels c)).getD j [])
    (h2 : i ∈ (splitChunks kfold (classIdx labels c')).getD j' []) : c = c' := by
  have m1 := mem_chunk_subset kfold j _ hk i h1
  have m2 := mem_chunk_subset kfold j' _ hk i h2
  rw [mem_classIdx] at m1 m2
  rw [← m1.2, ← m2.2]

/-- With at least two folds, the validate fold differs from the test fold. -/
theorem validate_ne_test (k kfold : Nat) (h2 : 2 ≤ kfold) (hk : k < kfold) :
    (k + 1) % kfold ≠ k := by
  intro h
  rcases Nat.lt_or_ge (k + 1) kfold with hlt | hge
  · rw [Nat.mod_eq_of_lt hlt] at h
    omega
  · have heq : k + 1 = kfold := by omega
    rw [← heq, Nat.mod_self] at h
    omega

/-! ### Generic access lemmas -/

theorem getD_map_lt {α β : Type*} (f : α → β) (l : List α) (c : Nat)
    (hc : c < l.length) (d : β) (dA : α) :
    (l.map f).getD c d = f (l.getD c dA) := by
  have hm : c < (l.map f).length := by simpa using hc
  rw [List.getD_eq_getElem _ _ hm, List.getD_eq_getElem _ _ hc, List.getElem_map]

theorem getD_zipWith_lt {α β γ : Type*} (f : α → β → γ) (A : List α) (B : List β)
    (b : Nat) (hb : b < min A.length B.length) (d : γ) (dA : α) (dB : β) :
    (List.zipWith f A B).getD b d = f (A.getD b dA) (B.getD b dB) := by
  have hbA : b < A.length := lt_of_lt_of_le hb (min_le_left _ _)
  have hbB : b < B.length := lt_of_lt_of_le hb (min_le_right _ _)
  have hlen : b < (List.zipWith f A B).length := by
    rw [List.length_zipWith]; exact hb
  rw [List.getD_eq_getElem _ _ hlen, List.getD_eq_getElem _ _ hbA,
    List.getD_eq_getElem _ _ hbB, List.getElem_zipWith]

theorem sum_zipWith_getD {α β γ : Type*} [AddCommMonoid γ] (g : α → β → γ)
    (dA : α) (dB : β) :
    ∀ (A : List α) (B : List β),
      (List.zipWith g A B).sum =
        ∑ b ∈ Finset.range (min A.length B.length), g (A.getD b dA) (B.getD b dB) := by
  intro A
  induction A with
  | nil => intro B; simp
  | cons a A ih =>
    intro B
    cases B with
    | nil => simp
    | cons b B =>
      rw [List.zipWith_cons_cons, List.sum_cons, ih B, List.length_cons,
        List.length_cons, Nat.succ_min_succ, Finset.sum_range_succ']
      simp only [List.getD_cons_succ, List.getD_cons_zero]
      exact (add_comm _ _)

/-! ### Claim theorems: filter bank and k-fold -/

/-- C4: `generate_filterbank` fails with an invalid-configuration error, and
does not clamp or adjust, whenever some edge pair has low ≥ high or some edge
frequency sits at or above the Nyquist frequency. -/
theorem generate_filterbank_rejects_invalid (wp ws : List (ℚ × ℚ)) (srate : ℚ)
    (order : Nat) (rp : ℚ)
    (h : ∃ p ∈ wp ++ ws, p.2 ≤ p.1 ∨ nyquist srate ≤ p.1 ∨ nyquist srate ≤ p.2) :
    generate_filterbank wp ws srate order rp = .error "ConfigurationError" := by
  unfold generate_filterbank
  rw [if_neg]
  intro hall
  obtain ⟨p, hp, hbad⟩ := h
  have hvalid := List.all_eq_true.mp hall p hp
  unfold validBandEdges at hvalid
  rw [Bool.and_eq_true, Bool.and_eq_true] at hvalid
  obtain ⟨⟨h1, h2⟩, h3⟩ := hvalid
  rw [decide_eq_true_eq] at h1 h2 h3
  rcases hbad with hb | hb | hb
  · exact absurd h1 (not_lt.mpr hb)
  · exact absurd h2 (not_lt.mpr hb)
  · exact absurd h3 (not_lt.mpr hb)

/-- Witness for C4 at a concrete inverted edge pair. -/
theorem generate_filterbank_rejects_invalid_witness :
    (∃ p ∈ [((90 : ℚ), (5 : ℚ))] ++ [((3 : ℚ), (92 : ℚ))],
        p.2 ≤ p.1 ∨ nyquist 250 ≤ p.1 ∨ nyquist 250 ≤ p.2) ∧
    generate_filterbank [(90, 5)] [(3, 92)] 250 15 (1 / 2) =
      .error "ConfigurationError" :=
  ⟨by decide, generate_filterbank_rejects_invalid _ _ _ _ _ (by decide)⟩

/-- C5: if some class occurring in the metadata has strictly fewer trials than
the requested kfold count, the generator fails with a ConfigurationError. -/
theorem generate_kfold_insufficient (labels : List Nat) (kfold : Nat)
    (h : ∃ c ∈ labels.dedup, (classIdx labels c).length < kfold) :
    generate_kfold_indices labels kfold = .error "ConfigurationError" := by
  unfold generate_kfold_indices
  rw [if_neg]
  intro hall
  obtain ⟨c, hc, hlt⟩ := h
  have := List.all_eq_true.mp hall c hc
  simp only [decide_eq_true_eq] at this
  omega

/-- Witness for C5: class 1 contributes one trial while two folds are asked. -/
theorem generate_kfold_insufficient_witness :
    (∃ c ∈ ([0, 0, 1] : List Nat).dedup, (classIdx [0, 0, 1] c).length < 2) ∧
    generate_kfold_indices [0, 0, 1] 2 = .error "ConfigurationError" :=
  ⟨by decide, generate_kfold_insufficient _ _ (by decide)⟩

/-- C2 counterexample: kfold = 1 is accepted by the generator, yet the validate
fold coincides with the test fold, so the returned triple is not pairwise
disjoint: the claim fails as stated. -/
theorem kfold_partition_cex :
    generate_kfold_indices [0, 0] 1 = Except.ok [[[0, 1]]] ∧
    ¬ (∀ i, i ∈ (match_kfold_indices 0 1 [[[0, 1]]]).2.1 →
            i ∉ (match_kfold_indices 0 1 [[[0, 1]]]).2.2) := by
  constructor
  · rfl
  · intro h
    exact h 0 (by decide) (by decide)

/-- C2 (amended: at least two folds): for every metadata set, every accepted
kfold count with kfold ≥ 2, and every fold number k < kfold, the (train,
validate, test) index lists returned by `match_kfold_indices` are pairwise
disjoint and their union is the full per-subject index set. -/
theorem kfold_partition (labels : List Nat) (kfold k : Nat)
    (assign : List (List (List Nat)))
    (train validate test : List Nat)
    (hacc : generate_kfold_indices labels kfold = .ok assign)
    (h2 : 2 ≤ kfold) (hk : k < kfold)
    (hmatch : match_kfold_indices k kfold assign = (train, validate, test)) :
    (∀ i, (i ∈ train ∨ i ∈ validate ∨ i ∈ test) ↔ i ∈ List.range labels.length) ∧
    (∀ i, i ∈ train → i ∉ validate) ∧
    (∀ i, i ∈ train → i ∉ test) ∧
    (∀ i, i ∈ validate → i ∉ test) := by
  obtain ⟨hA, hcnt⟩ := generate_ok_eq labels kfold assign hacc
  subst hA
  have hk1 : 1 ≤ kfold := le_trans (by omega) h2
  have hvne : (k + 1) % kfold ≠ k := validate_ne_test k kfold h2 hk
  unfold match_kfold_indices at hmatch
  obtain ⟨htr, hva, hte⟩ : restFolds _ k kfold = train ∧
      singleFold _ ((k + 1) % kfold) = validate ∧ singleFold _ k = test := by
    have h1 := congrArg Prod.fst hmatch
    have h2' := congrArg (fun p => p.2.1) hmatch
    have h3 := congrArg (fun p => p.2.2) hmatch
    exact ⟨h1, h2', h3⟩
  subst htr; subst hva; subst hte
  refine ⟨?_, ?_, ?_, ?_⟩
  · intro i
    constructor
    · rintro (h | h | h)
      · rw [mem_restFolds] at h
        obtain ⟨c, hc, j, _, _, _, hi⟩ := h
        have hmem := mem_chunk_subset kfold j _ hk1 i hi
        rw [mem_classIdx] at hmem
        simpa [List.mem_range] using hmem.1
      · rw [mem_singleFold] at h
        obtain ⟨c, hc, hi⟩ := h
        have hmem := mem_chunk_subset kfold _ _ hk1 i hi
        rw [mem_classIdx] at hmem
        simpa [List.mem_range] using hmem.1
      · rw [mem_singleFold] at h
        obtain ⟨c, hc, hi⟩ := h
        have hmem := mem_chunk_subset kfold _ _ hk1 i hi
        rw [mem_classIdx] at hmem
        simpa [List.mem_range] using hmem.1
    · intro hi
      rw [List.mem_range] at hi
      have hcd : labels.getD i 0 ∈ labels.dedup := by
        rw [List.mem_dedup, List.getD_eq_getElem _ _ hi]
        exact List.getElem_mem hi
      have hci : i ∈ classIdx labels (labels.getD i 0) :=
        (mem_classIdx labels _ i).mpr ⟨hi, rfl⟩
      have hflat : i ∈ (splitChunks kfold (classIdx labels (labels.getD i 0))).flatten := by
        rw [splitChunks_flatten _ _ hk1]; exact hci
      rw [List.mem_flatten] at hflat
      obtain ⟨chunk, hchunk, hic⟩ := hflat
      obtain ⟨j, hj, hchunkeq⟩ := List.getElem_of_mem hchunk
      have hjlt : j < kfold := by rwa [splitChunks_length] at hj
      have higetD : i ∈ (splitChunks kfold (classIdx labels (labels.getD i 0))).getD j [] := by
        rw [List.getD_eq_getElem _ _ hj, hchunkeq]
        exact hic
      by_cases hjt : j = k
      · right; right
        rw [mem_singleFold]
        exact ⟨_, hcd, hjt ▸ higetD⟩
      by_cases hjv : j = (k + 1) % kfold
      · right; left
        rw [mem_singleFold]
        exact ⟨_, hcd, hjv ▸ higetD⟩
      · left
        rw [mem_restFolds]
        exact ⟨_, hcd, j, hjlt, hjt, hjv, higetD⟩
  · intro i h1 h2'
    rw [mem_restFolds] at h1
    rw [mem_singleFold] at h2'
    obtain ⟨c, hc, j, hjlt, hjk, hjv, hi1⟩ := h1
    obtain ⟨c', hc', hi2⟩ := h2'
    have hcc := chunk_class_unique labels kfold hk1 c c' j ((k + 1) % kfold) i hi1 hi2
    subst hcc
    exact chunk_disjoint kfold _ hk1 (classIdx_nodup labels c) j ((k + 1) % kfold) hjv i hi1 hi2
  · intro i h1 h2'
    rw [mem_restFolds] at h1
    rw [mem_singleFold] at h2'
    obtain ⟨c, hc, j, hjlt, hjk, hjv, hi1⟩ := h1
    obtain ⟨c', hc', hi2⟩ := h2'
    have hcc := chunk_class_unique labels kfold hk1 c c' j k i hi1 hi2
    subst hcc
    exact chunk_disjoint kfold _ hk1 (classIdx_nodup labels c) j k hjk i hi1 hi2
  · intro i h1 h2'
    rw [mem_singleFold] at h1 h2'
    obtain ⟨c, hc, hi1⟩ := h1
    obtain ⟨c', hc', hi2⟩ := h2'
    have hcc := chunk_class_unique labels kfold hk1 c c' ((k + 1) % kfold) k i hi1 hi2
    subst hcc
    exact chunk_disjoint kfold _ hk1 (classIdx_nodup labels c) ((k + 1) % kfold) k hvne i hi1 hi2

/-- Witness for the amended C2 on a concrete 2-class, 3-fold split. -/
theorem kfold_partition_witness :
    generate_kfold_indices [0, 1, 0, 1, 0, 1] 3 =
      Except.ok [[[0], [2], [4]], [[1], [3], [5]]] ∧
    match_kfold_indices 0 3 [[[0], [2], [4]], [[1], [3], [5]]] =
      ([4, 5], [2, 3], [0, 1]) ∧
    ((∀ i, (i ∈ [4, 5] ∨ i ∈ [2, 3] ∨ i ∈ [0, 1]) ↔ i ∈ List.range 6) ∧
     (∀ i, i ∈ [4, 5] → i ∉ [2, 3]) ∧
     (∀ i, i ∈ [4, 5] → i ∉ [0, 1]) ∧
     (∀ i, i ∈ [2, 3] → i ∉ [0, 1])) :=
  ⟨rfl, rfl,
    kfold_partition [0, 1, 0, 1, 0, 1] 3 0 [[[0], [2], [4]], [[1], [3], [5]]]
      [4, 5] [2, 3] [0, 1] rfl (by decide) (by decide) rfl⟩

/-! ### Claim theorems: demo configuration, paradigms, dataset paths -/

/-- C8: for each of the five demo sub-bands, the pass band is strictly
contained inside the stop band and every edge lies strictly below the Nyquist
frequency 125 Hz implied by srate = 250. -/
theorem demo_filterbank_config_valid (i : Nat) (hi : i < 5) :
    nyquist demo_srate = 125 ∧
    (demo_ws.getD i (0, 0)).1 < (demo_wp.getD i (0, 0)).1 ∧
    (demo_wp.getD i (0, 0)).2 < (demo_ws.getD i (0, 0)).2 ∧
    (demo_wp.getD i (0, 0)).1 < nyquist demo_srate ∧
    (demo_wp.getD i (0, 0)).2 < nyquist demo_srate ∧
    (demo_ws.getD i (0, 0)).1 < nyquist demo_srate ∧
    (demo_ws.getD i (0, 0)).2 < nyquist demo_srate := by
  interval_cases i <;> exact ⟨by norm_num [nyquist, demo_srate], by decide, by decide,
    by norm_num [nyquist, demo_srate, demo_wp], by norm_num [nyquist, demo_srate, demo_wp],
    by norm_num [nyquist, demo_srate, demo_ws], by norm_num [nyquist, demo_srate, demo_ws]⟩

/-- Witness for C8 at the first sub-band. -/
theorem demo_filterbank_config_valid_witness :
    (0 : Nat) < 5 ∧ (demo_ws.getD 0 (0, 0)).1 < (demo_wp.getD 0 (0, 0)).1 :=
  ⟨by decide, (demo_filterbank_config_valid 0 (by decide)).2.1⟩

/-- C9: `SSVEP.is_valid` accepts exactly the datasets whose paradigm string is
"ssvep", `P300.is_valid` exactly those with "p300", and both reject the
Schirrmeister2017 dataset, whose paradigm is "imagery". -/
theorem paradigm_is_valid_iff :
    (∀ d : DatasetMeta, ssvep_is_valid d = true ↔ d.paradigm = "ssvep") ∧
    (∀ d : DatasetMeta, p300_is_valid d = true ↔ d.paradigm = "p300") ∧
    ssvep_is_valid schirrmeister2017 = false ∧
    p300_is_valid schirrmeister2017 = false := by
  refine ⟨?_, ?_, by decide, by decide⟩
  · intro d
    by_cases h : d.paradigm = "ssvep" <;> simp [ssvep_is_valid, h]
  · intro d
    by_cases h : d.paradigm = "p300" <;> simp [p300_is_valid, h]

/-- C10: `data_path` errors with "Invalid subject id" exactly on subjects
outside 1..14; on a valid subject it returns a single inner list holding the
resolved train path then the resolved test path, and the dataset object is
unchanged. -/
theorem data_path_spec (fetch : String → String) (subject : Nat) :
    ((data_path fetch schirrmeister2017 subject).1 = .error "Invalid subject id" ↔
      subject ∉ List.range' 1 14) ∧
    (subject ∈ List.range' 1 14 →
      (data_path fetch schirrmeister2017 subject).1 =
        .ok [[fetch (subject_url "train" subject), fetch (subject_url "test" subject)]]) ∧
    (data_path fetch schirrmeister2017 subject).2 = schirrmeister2017 := by
  unfold data_path
  by_cases h : subject ∈ schirrmeister2017.subjects
  · rw [if_neg (not_not_intro h)]
    refine ⟨⟨fun hco => ?_, fun hns => absurd h hns⟩, fun _ => rfl, rfl⟩
    exact absurd hco (by simp)
  · rw [if_pos h]
    exact ⟨⟨fun _ => h, fun _ => rfl⟩, fun hmem => absurd hmem h, rfl⟩

/-- Witness for C10: subject 1 resolves to its train and test URLs. -/
theorem data_path_spec_witness :
    (1 ∈ List.range' 1 14) ∧
    (data_path id schirrmeister2017 1).1 =
      .ok [[id (subject_url "train" 1), id (subject_url "test" 1)]] :=
  ⟨by decide, (data_path_spec id 1).2.1 (by decide)⟩

/-! ### Sign-convention lemmas -/

theorem map_abs_neg (w : List ℚ) :
    (w.map (fun v => -v)).map (fun v => |v|) = w.map (fun v => |v|) := by
  rw [List.map_map]
  exact List.map_congr_left (fun a _ => abs_neg a)

theorem fixSign_nonzero_entry (w : List ℚ) (hnz : ∃ v ∈ w, v ≠ 0) :
    w.getD (argmaxList (w.map (fun v => |v|))) 0 ≠ 0 := by
  obtain ⟨v, hv, hvne⟩ := hnz
  obtain ⟨k, hk, hvk⟩ := List.getElem_of_mem hv
  have hklt : k < (w.map (fun v => |v|)).length := by simpa using hk
  have hmax := argmaxList_is_max (w.map (fun v => |v|)) k hklt
  have hwne : w ≠ [] := by rintro rfl; simp at hv
  have hilt : argmaxList (w.map (fun v => |v|)) < (w.map (fun v => |v|)).length :=
    argmaxList_lt_length _ (by simpa using hwne)
  have hiw : argmaxList (w.map (fun v => |v|)) < w.length := by simpa using hilt
  have h1 : (w.map (fun v => |v|)).getD k 0 = |v| := by
    rw [getD_map_lt _ _ k hk 0 0, List.getD_eq_getElem _ _ hk, hvk]
  have h2 : (w.map (fun v => |v|)).getD (argmaxList (w.map (fun v => |v|))) 0 =
      |w.getD (argmaxList (w.map (fun v => |v|))) 0| := getD_map_lt _ _ _ hiw 0 0
  rw [h1, h2] at hmax
  intro h0
  rw [h0] at hmax
  simp only [abs_zero] at hmax
  exact hvne (abs_eq_zero.mp (le_antisymm hmax (abs_nonneg v)))

theorem fixSign_neg (w : List ℚ) (hnz : ∃ v ∈ w, v ≠ 0) :
    fixSign (w.map (fun v => -v)) = fixSign w := by
  have hwne : w ≠ [] := by rintro rfl; simp at hnz
  unfold fixSign
  rw [map_abs_neg]
  have hiw : argmaxList (w.map (fun v => |v|)) < w.length := by
    have := argmaxList_lt_length (w.map (fun v => |v|)) (by simpa using hwne)
    simpa using this
  rw [getD_map_lt (fun v => -v) w _ hiw 0 0]
  have he := fixSign_nonzero_entry w hnz
  rcases lt_or_gt_of_ne he with hlt | hgt
  · rw [if_neg (not_lt.mpr (le_of_lt (neg_pos.mpr hlt))), if_pos hlt]
  · rw [if_pos (neg_neg_of_pos hgt), if_neg (not_lt.mpr (le_of_lt hgt))]
    rw [List.map_map]
    have hcomp : ((fun v : ℚ => -v) ∘ fun v : ℚ => -v) = id := funext fun a => neg_neg a
    rw [hcomp, List.map_id]

theorem fixSign_scale (s : ℚ) (w : List ℚ) (hs : s = 1 ∨ s = -1)
    (hnz : ∃ v ∈ w, v ≠ 0) :
    fixSign (w.map (fun v => s * v)) = fixSign w := by
  rcases hs with rfl | rfl
  · have hone : w.map (fun v => (1 : ℚ) * v) = w := by simp
    rw [hone]
  · have hneg : w.map (fun v => (-1 : ℚ) * v) = w.map (fun v => -v) :=
      List.map_congr_left (fun a _ => by ring)
    rw [hneg, fixSign_neg w hnz]

theorem scaleEach_fixSign :
    ∀ (eigs : List (List ℚ)) (signs : List ℚ),
      (∀ s ∈ signs, s = 1 ∨ s = -1) → signs.length = eigs.length →
      (∀ w ∈ eigs, ∃ v ∈ w, v ≠ 0) →
      (scaleEach signs eigs).map fixSign = eigs.map fixSign := by
  intro eigs
  induction eigs with
  | nil => intro signs _ _ _; simp [scaleEach]
  | cons w ws ih =>
    intro signs hs hlen hnz
    cases signs with
    | nil => simp at hlen
    | cons s ss =>
      show (List.zipWith (fun s w => w.map (fun v => s * v)) (s :: ss) (w :: ws)).map fixSign
        = (w :: ws).map fixSign
      rw [List.zipWith_cons_cons, List.map_cons, List.map_cons]
      congr 1
      · exact fixSign_scale s w (hs s (List.mem_cons_self _ _)) (hnz w (List.mem_cons_self _ _))
      · exact ih ss (fun t ht => hs t (List.mem_cons_of_mem _ ht))
          (by simpa using hlen) (fun u hu => hnz u (List.mem_cons_of_mem _ hu))

/-! ### Claim theorems: FBTRCA scoring, argmax, determinism, frame -/

/-- C1: for every fitted FBTRCA model and test trial, the fused score of each
candidate class `c` equals the sum over sub-bands `b` of
`filterweights[b] * sign(r_bc) * r_bc^2`, where `r_bc` is the raw correlation
between the sub-band-b spatially filtered test trial and sub-band-b's stored
template for class `c`. -/
theorem fused_score_formula (m : FBTRCAModel) (fitted : List FittedBand)
    (x : Trial) (c numClasses : Nat)
    (hfit : fitted.length = m.bands.length)
    (hfw : m.fw.length = m.bands.length)
    (htpl : ∀ fb ∈ fitted, fb.templates.length = numClasses)
    (hc : c < numClasses) :
    (predictScores m fitted x numClasses).getD c 0 =
      ∑ b ∈ Finset.range m.bands.length,
        m.fw.getD b 0 * ratSign (rawCorr m fitted x b c) *
          (rawCorr m fitted x b c) ^ 2 := by
  have hsc : (predictScores m fitted x numClasses).getD c 0
      = fuseRow m.fw (rMatrix m fitted x) c := by
    unfold predictScores
    rw [getD_map_lt _ _ c (by simpa using hc) 0 0]
    congr 1
    rw [List.getD_eq_getElem _ _ (by simpa using hc), List.getElem_range]
  rw [hsc]
  unfold fuseRow
  rw [sum_zipWith_getD _ 0 []]
  have hrs_len : (rMatrix m fitted x).length = m.bands.length := by
    unfold rMatrix
    rw [List.length_zipWith, hfit]
    exact min_self _
  have hmin : min m.fw.length (rMatrix m fitted x).length = m.bands.length := by
    rw [hrs_len, hfw]
    exact min_self _
  rw [hmin]
  apply Finset.sum_congr rfl
  intro b hb
  rw [Finset.mem_range] at hb
  have hrow : (rMatrix m fitted x).getD b [] =
      (fitted.getD b default).templates.map
        (fun tpl => m.pear (project (fitted.getD b default).sfilter
          ((m.bands.getD b id) x)) tpl) := by
    unfold rMatrix
    rw [getD_zipWith_lt _ m.bands fitted b (by rw [hfit, min_self]; exact hb) [] id default]
  rw [hrow]
  have hbf : b < fitted.length := by rw [hfit]; exact hb
  have htl : c < (fitted.getD b default).templates.length := by
    have hmem : fitted.getD b default ∈ fitted := by
      rw [List.getD_eq_getElem _ _ hbf]
      exact List.getElem_mem hbf
    rw [htpl _ hmem]
    exact hc
  rw [getD_map_lt _ _ c htl 0 []]
  rw [signedSquare_eq_sign_mul_sq]
  unfold rawCorr
  ring

/-- Witness for C1 on the small concrete instance. -/
theorem fused_score_formula_witness :
    (0 < 2) ∧
    (predictScores tinyM tinyFit [[3], [4]] 2).getD 0 0 =
      ∑ b ∈ Finset.range tinyM.bands.length,
        tinyM.fw.getD b 0 * ratSign (rawCorr tinyM tinyFit [[3], [4]] b 0) *
          (rawCorr tinyM tinyFit [[3], [4]] b 0) ^ 2 :=
  ⟨by decide, fused_score_formula tinyM tinyFit [[3], [4]] 0 2 rfl rfl (by decide) (by decide)⟩

/-- C3: the predicted label is the candidate class of maximal fused score; the
scores at the chosen index dominate all classes, and any class attaining the
maximum has index at least the chosen one, so ties go to the lowest index. -/
theorem predict_is_argmax (m : FBTRCAModel) (fitted : List FittedBand)
    (classes : List Nat) (x : Trial) (hne : classes ≠ []) :
    FBTRCA_predict m fitted classes [x] =
      [classes.getD (argmaxList (predictScores m fitted x classes.length)) 0] ∧
    argmaxList (predictScores m fitted x classes.length) < classes.length ∧
    (∀ c, c < classes.length →
      (predictScores m fitted x classes.length).getD c 0 ≤
        (predictScores m fitted x classes.length).getD
          (argmaxList (predictScores m fitted x classes.length)) 0) ∧
    (∀ c, c < classes.length →
      (predictScores m fitted x classes.length).getD
          (argmaxList (predictScores m fitted x classes.length)) 0 ≤
        (predictScores m fitted x classes.length).getD c 0 →
      argmaxList (predictScores m fitted x classes.length) ≤ c) := by
  have hlen : (predictScores m fitted x classes.length).length = classes.length := by
    simp [predictScores]
  have hnil : predictScores m fitted x classes.length ≠ [] := by
    intro h0
    apply hne
    apply List.length_eq_zero.mp
    rw [← hlen, h0]
    rfl
  refine ⟨?_, ?_, ?_, ?_⟩
  · simp [FBTRCA_predict]
  · have hidx := argmaxList_lt_length _ hnil
    rwa [hlen] at hidx
  · intro c hcc
    exact argmaxList_is_max _ c (by rw [hlen]; exact hcc)
  · intro c hcc hmax
    exact argmaxList_first _ c (by rw [hlen]; exact hcc) hmax

/-- Witness for C3 on the small concrete instance. -/
theorem predict_is_argmax_witness :
    (([0, 1] : List Nat) ≠ []) ∧
    FBTRCA_predict tinyM tinyFit [0, 1] [[[3], [4]]] =
      [([0, 1] : List Nat).getD
        (argmaxList (predictScores tinyM tinyFit [[3], [4]]
          ([0, 1] : List Nat).length)) 0] :=
  ⟨by decide, (predict_is_argmax tinyM tinyFit [0, 1] [[3], [4]] (by decide)).1⟩

/-- C6: two fit-then-predict runs on identical inputs produce identical
predicted label sequences: the only non-input-determined quantity, the
eigensolver's per-band eigenvector sign, is erased by the sign convention. -/
theorem fit_predict_deterministic (m : FBTRCAModel) (X tests : List Trial)
    (y : List Nat) (eigs : List (List ℚ)) (signs₁ signs₂ : List ℚ)
    (hs₁ : ∀ s ∈ signs₁, s = 1 ∨ s = -1) (hs₂ : ∀ s ∈ signs₂, s = 1 ∨ s = -1)
    (hl₁ : signs₁.length = eigs.length) (hl₂ : signs₂.length = eigs.length)
    (hnz : ∀ w ∈ eigs, ∃ v ∈ w, v ≠ 0) :
    FBTRCA_predict m (FBTRCA_fit m (scaleEach signs₁ eigs) X y).1
        (FBTRCA_fit m (scaleEach signs₁ eigs) X y).2 tests =
      FBTRCA_predict m (FBTRCA_fit m (scaleEach signs₂ eigs) X y).1
        (FBTRCA_fit m (scaleEach signs₂ eigs) X y).2 tests := by
  have hfiteq : FBTRCA_fit m (scaleEach signs₁ eigs) X y =
      FBTRCA_fit m (scaleEach signs₂ eigs) X y := by
    unfold FBTRCA_fit
    rw [scaleEach_fixSign eigs signs₁ hs₁ hl₁ hnz,
      scaleEach_fixSign eigs signs₂ hs₂ hl₂ hnz]
  rw [hfiteq]

/-- Witness for C6: opposite eigenvector signs, identical predictions. -/
theorem fit_predict_deterministic_witness :
    (∀ s ∈ ([1] : List ℚ), s = 1 ∨ s = -1) ∧
    FBTRCA_predict tinyM
        (FBTRCA_fit tinyM (scaleEach [1] [[1, -2]]) [[[1], [2]], [[2], [1]]] [0, 1]).1
        (FBTRCA_fit tinyM (scaleEach [1] [[1, -2]]) [[[1], [2]], [[2], [1]]] [0, 1]).2
        [[[1], [2]]] =
      FBTRCA_predict tinyM
        (FBTRCA_fit tinyM (scaleEach [-1] [[1, -2]]) [[[1], [2]], [[2], [1]]] [0, 1]).1
        (FBTRCA_fit tinyM (scaleEach [-1] [[1, -2]]) [[[1], [2]], [[2], [1]]] [0, 1]).2
        [[[1], [2]]] :=
  ⟨by decide, fit_predict_deterministic tinyM [[[1], [2]], [[2], [1]]] [[[1], [2]]]
    [0, 1] [[1, -2]] [1] [-1] (by decide) (by decide) rfl rfl (by decide)⟩

/-- C7: the embedded fit, transform and predict calls hand the caller's input
arrays back unchanged: the components do not mutate their inputs. -/
theorem calls_preserve_inputs (m : FBTRCAModel) (eigs : List (List ℚ))
    (X tests : List Trial) (y : List Nat) (fb : FittedBand)
    (fitted : List FittedBand) (classes : List Nat) :
    (FBTRCA_fit_call m eigs X y).2 = (X, y) ∧
    (TRCA_transform_call fb X).2 = X ∧
    (FBTRCA_predict_call m fitted classes tests).2 = tests :=
  ⟨rfl, rfl, rfl⟩

end DavidBCI
